import Mathlib

/-
Verification of the flood-tracker extraction and feature pipeline.

The development shallowly embeds the Python sources:
  full_load.py : FloodDataExtractor (paginated extraction loops, CSV writes with
                 reconciled field names), run_full_extraction,
                 run_incremental_extraction (watermark read, fetch-since loop,
                 append-merge rewrite, watermark write)
  run_etl.py   : FloodETL._extract_paginated_data, FloodETL.create_features
                 (left merge of readings with stations, lag features)

Conventions of the embedding:
  * A raw JSON item is a Record: an association list from field name to value.
  * A page request is a function from the requested offset to a FetchResult.
    FetchResult.err models any raised exception caught by the except branch of
    the Python loops (network error, raise_for_status on non-2xx, malformed
    body); FetchResult.ok items models a parsed body, where a body without an
    items key yields ok [] exactly as data.get with the empty default does.
  * The unbounded while True loops are embedded with an explicit fuel argument;
    every theorem about a loop supplies enough fuel for the loop to reach its
    break, so the fuel never truncates a run that the Python code finishes.
  * Python set values are embedded as Finset String; sorted() on a set of
    strings is Finset.sort under the code-point order, stated here through
    fieldLe (comparison of the character lists, provably the same relation as
    the String order).
  * The flood_data directory is the state FS: one optional CSV per entity plus
    the two timestamp files the code touches, each field named after the file.
-/

/-- One raw item of an API page: field name to value, as the Python dict. -/
abbrev Record := List (String × String)

/-- The keys of a record, as in reading.keys() in the source. -/
def recordKeys (r : Record) : List String := r.map Prod.fst

/-- Outcome of one page request, as seen by the try block of the loops. -/
inductive FetchResult where
  | ok (items : List Record)
  | err
deriving DecidableEq

/-- What one run of a pagination loop produced: the accumulated items, the
offsets at which requests were issued, and whether the except branch ran
(the error print or logging.error call). -/
structure LoopResult where
  data : List Record
  offsets : List Nat
  errored : Bool
deriving DecidableEq

/-- The while True pagination loop shared by FloodETL._extract_paginated_data,
FloodDataExtractor.extract_all_stations, extract_historical_readings,
extract_flood_warnings and the loop of run_incremental_extraction: request the
current offset; on an exception record the error and stop; on an empty (or
missing) items list stop; otherwise extend the accumulator and advance the
offset by the limit. -/
def extractPagesAux (fetch : Nat → FetchResult) (limit : Nat) :
    Nat → Nat → LoopResult
  | _, 0 => ⟨[], [], false⟩
  | offset, fuel + 1 =>
    match fetch offset with
    | .err => ⟨[], [offset], true⟩
    | .ok items =>
      if items.isEmpty then ⟨[], [offset], false⟩
      else
        let rest := extractPagesAux fetch limit (offset + limit) fuel
        ⟨items ++ rest.data, offset :: rest.offsets, rest.errored⟩

/-- A pagination loop started at offset 0, as every loop in the source is. -/
def extract_paginated_data (fetch : Nat → FetchResult) (limit fuel : Nat) :
    LoopResult :=
  extractPagesAux fetch limit 0 fuel

/-- Running the loop from page s, when the k pages s, s+1, …, s+k-1 respond
with nonempty item lists and page s+k raises, yields exactly the concatenation
of those k pages with the error recorded. -/
theorem extractPagesAux_err (fetch : Nat → FetchResult)
    (pageItems : Nat → List Record) (limit : Nat) :
    ∀ (k s fuel : Nat), k < fuel →
    (∀ i, i < k → fetch ((s + i) * limit) = .ok (pageItems (s + i)) ∧
      pageItems (s + i) ≠ []) →
    fetch ((s + k) * limit) = .err →
    extractPagesAux fetch limit (s * limit) fuel =
      ⟨((List.range k).map (fun i => pageItems (s + i))).flatten,
       (List.range (k + 1)).map (fun i => (s + i) * limit), true⟩ := by
  intro k
  induction k with
  | zero =>
    intro s fuel hfuel _ herr
    obtain ⟨fuel, rfl⟩ : ∃ f, fuel = f + 1 :=
      ⟨fuel - 1, by omega⟩
    simp only [extractPagesAux]
    rw [show s + 0 = s from rfl] at herr
    rw [herr]
    rw [List.range_succ_eq_map 0]
    simp
  | succ k ih =>
    intro s fuel hfuel hok herr
    obtain ⟨fuel, rfl⟩ : ∃ f, fuel = f + 1 :=
      ⟨fuel - 1, by omega⟩
    have h0 := hok 0 (Nat.succ_pos k)
    simp only [extractPagesAux]
    rw [show s + 0 = s from rfl] at h0
    rw [h0.1]
    simp only [List.isEmpty_iff]
    rw [if_neg h0.2]
    have hrec : s * limit + limit = (s + 1) * limit := by ring
    rw [hrec]
    have ih' := ih (s + 1) fuel (by omega)
      (fun i hi => by
        have := hok (i + 1) (by omega)
        rwa [show s + (i + 1) = s + 1 + i by omega] at this)
      (by rwa [show s + 1 + k = s + (k + 1) by omega])
    rw [ih']
    simp only [LoopResult.mk.injEq]
    refine ⟨?_, ?_, trivial⟩
    · rw [List.range_succ_eq_map k]
      simp only [List.map_cons, List.map_map, List.flatten_cons, Nat.add_zero]
      congr 2
      apply List.map_congr_left
      intro i _
      simp only [Function.comp_apply, Nat.succ_eq_add_one]
      congr 1
      omega
    · rw [List.range_succ_eq_map (k + 1)]
      simp only [List.map_cons, List.map_map, Nat.add_zero]
      congr 1
      apply List.map_congr_left
      intro i _
      simp only [Function.comp_apply, Nat.succ_eq_add_one]
      congr 1
      omega

/-- Running the loop from page s, when the k pages s, …, s+k-1 respond with
nonempty item lists and page s+k responds with an empty (or missing) items
list, yields the concatenation of those k pages, requests exactly the k+1
offsets, and records no error. -/
theorem extractPagesAux_empty (fetch : Nat → FetchResult)
    (pageItems : Nat → List Record) (limit : Nat) :
    ∀ (k s fuel : Nat), k < fuel →
    (∀ i, i < k → fetch ((s + i) * limit) = .ok (pageItems (s + i)) ∧
      pageItems (s + i) ≠ []) →
    fetch ((s + k) * limit) = .ok [] →
    extractPagesAux fetch limit (s * limit) fuel =
      ⟨((List.range k).map (fun i => pageItems (s + i))).flatten,
       (List.range (k + 1)).map (fun i => (s + i) * limit), false⟩ := by
  intro k
  induction k with
  | zero =>
    intro s fuel hfuel _ hempty
    obtain ⟨fuel, rfl⟩ : ∃ f, fuel = f + 1 :=
      ⟨fuel - 1, by omega⟩
    simp only [extractPagesAux]
    rw [show s + 0 = s from rfl] at hempty
    rw [hempty]
    rw [List.range_succ_eq_map 0]
    simp
  | succ k ih =>
    intro s fuel hfuel hok hempty
    obtain ⟨fuel, rfl⟩ : ∃ f, fuel = f + 1 :=
      ⟨fuel - 1, by omega⟩
    have h0 := hok 0 (Nat.succ_pos k)
    simp only [extractPagesAux]
    rw [show s + 0 = s from rfl] at h0
    rw [h0.1]
    simp only [List.isEmpty_iff]
    rw [if_neg h0.2]
    have hrec : s * limit + limit = (s + 1) * limit := by ring
    rw [hrec]
    have ih' := ih (s + 1) fuel (by omega)
      (fun i hi => by
        have := hok (i + 1) (by omega)
        rwa [show s + (i + 1) = s + 1 + i by omega] at this)
      (by rwa [show s + 1 + k = s + (k + 1) by omega])
    rw [ih']
    simp only [LoopResult.mk.injEq]
    refine ⟨?_, ?_, trivial⟩
    · rw [List.range_succ_eq_map k]
      simp only [List.map_cons, List.map_map, List.flatten_cons, Nat.add_zero]
      congr 2
      apply List.map_congr_left
      intro i _
      simp only [Function.comp_apply, Nat.succ_eq_add_one]
      congr 1
      omega
    · rw [List.range_succ_eq_map (k + 1)]
      simp only [List.map_cons, List.map_map, Nat.add_zero]
      congr 1
      apply List.map_congr_left
      intro i _
      simp only [Function.comp_apply, Nat.succ_eq_add_one]
      congr 1
      omega

/-- The order in which Python sorted() lists strings: code-point comparison,
embedded through the character list of the string. -/
def fieldLe (a b : String) : Prop := a.toList ≤ b.toList

instance : DecidableRel fieldLe := fun a b =>
  inferInstanceAs (Decidable (a.toList ≤ b.toList))

instance : IsTrans String fieldLe :=
  ⟨fun _ _ _ h₁ h₂ => le_trans h₁ h₂⟩

instance : IsAntisymm String fieldLe :=
  ⟨fun _ _ h₁ h₂ => String.toList_inj.mp (le_antisymm h₁ h₂)⟩

instance : IsTotal String fieldLe :=
  ⟨fun a b => le_total a.toList b.toList⟩

/-- fieldLe is exactly the standard order on String. -/
theorem fieldLe_iff (a b : String) : fieldLe a b ↔ a ≤ b :=
  String.le_iff_toList_le.symm

/-- The field-name set of a batch of records: set(); for r: update(r.keys()). -/
def unionKeysFinset (recs : List Record) : Finset String :=
  recs.foldl (fun acc r => acc ∪ (recordKeys r).toFinset) ∅

/-- sorted(existing_fieldnames | keys of every new record): the dynamic-header
computation of the CSV writes in full_load.py (extract_all_stations,
extract_historical_readings, extract_flood_warnings with an empty existing
set, run_incremental_extraction with the existing header set). -/
def reconcileFieldnames (existing : Finset String) (recs : List Record) :
    List String :=
  (recs.foldl (fun acc r => acc ∪ (recordKeys r).toFinset) existing).sort fieldLe

/-- A CSV file on disk: the header row and the data rows. -/
structure Csv where
  header : List String
  rows : List (List String)
deriving DecidableEq

/-- How csv.DictWriter renders one record row: one cell per field name, the
looked-up value or the empty-string restval for a field the record lacks. -/
def projectRecord (fields : List String) (r : Record) : List String :=
  fields.map (fun f => ((r.lookup f).getD ""))

/-- How csv.DictReader reads the rows back: each row becomes a record keyed by
the header. -/
def csvRecords (c : Csv) : List Record :=
  c.rows.map (fun row => c.header.zip row)

/-- Writing a fresh CSV from records alone, as the full-load writes do:
header = sorted set of all observed keys, one projected row per record. -/
def mkCsv (records : List Record) : Csv :=
  let fields := reconcileFieldnames ∅ records
  ⟨fields, records.map (projectRecord fields)⟩

/-- The flood_data directory: the three entity CSVs and the two timestamp
files touched by full_load.py. lastFullExtraction is last_full_extraction.txt
(written by run_full_extraction); lastExtraction is last_extraction.txt (read
and written by run_incremental_extraction). -/
structure FS where
  stationsCsv : Option Csv
  readingsCsv : Option Csv
  floodsCsv : Option Csv
  lastFullExtraction : Option String
  lastExtraction : Option String
deriving DecidableEq

/-- A directory with no files yet. -/
def emptyFS : FS := ⟨none, none, none, none, none⟩

/-- The external world of one run: the remote endpoints (each a function from
request offset to response; the readings-since endpoint also takes the since
parameter the code sends), the current wall-clock timestamp written by
datetime.now().isoformat(), and the loop fuel. -/
structure Env where
  fetchStations : Nat → FetchResult
  fetchReadings : Nat → FetchResult
  fetchReadingsSince : String → Nat → FetchResult
  fetchFloods : Nat → FetchResult
  now : String
  fuel : Nat

/-- run_full_extraction of full_load.py: page through stations, readings and
floods (limits 500, 1000, 500), write each CSV when its result is nonempty,
then write the current time to last_full_extraction.txt; returns the triple
of extracted record lists. -/
def run_full_extraction (env : Env) (s : FS) :
    FS × (List Record × List Record × List Record) :=
  let stations := (extract_paginated_data env.fetchStations 500 env.fuel).data
  let readings := (extract_paginated_data env.fetchReadings 1000 env.fuel).data
  let floods := (extract_paginated_data env.fetchFloods 500 env.fuel).data
  let s₁ := if stations.isEmpty then s else
    { s with stationsCsv := some (mkCsv stations) }
  let s₂ := if readings.isEmpty then s₁ else
    { s₁ with readingsCsv := some (mkCsv readings) }
  let s₃ := if floods.isEmpty then s₂ else
    { s₂ with floodsCsv := some (mkCsv floods) }
  ({ s₃ with lastFullExtraction := some env.now }, (stations, readings, floods))

/-- The append-merge block of run_incremental_extraction (the body guarded by
if new_readings): read the existing header set and rows of readings.csv when
the file exists, reconcile the header set with the keys of the new records,
and rewrite the whole file with the widened header, the re-projected existing
rows and the projected new rows. With no new readings the block is skipped
and the file is untouched. -/
def appendMergeReadings (s : FS) (newReadings : List Record) : FS :=
  if newReadings.isEmpty then s
  else
    let existingHeaders : Finset String :=
      match s.readingsCsv with
      | some c => c.header.toFinset
      | none => ∅
    let allFieldnames := reconcileFieldnames existingHeaders newReadings
    let existingData : List Record :=
      match s.readingsCsv with
      | some c => csvRecords c
      | none => []
    { s with readingsCsv := some (Csv.mk allFieldnames
        ((existingData ++ newReadings).map (projectRecord allFieldnames))) }

/-- What run_incremental_extraction returns: the full-load triple on the
missing-watermark fallback path, the new readings otherwise. -/
inductive IncOutcome where
  | fullFallback (result : List Record × List Record × List Record)
  | incremental (newReadings : List Record)
deriving DecidableEq

/-- run_incremental_extraction of full_load.py: read last_extraction.txt; if
the file is absent, fall back to run_full_extraction and return its result;
otherwise page through readings since the stored value (limit 1000), merge
the new readings into readings.csv, and write the current time to
last_extraction.txt. -/
def run_incremental_extraction (env : Env) (s : FS) : FS × IncOutcome :=
  match s.lastExtraction with
  | none =>
    let full := run_full_extraction env s
    (full.1, .fullFallback full.2)
  | some last =>
    let res := extract_paginated_data (env.fetchReadingsSince last) 1000 env.fuel
    let s' := appendMergeReadings s res.data
    ({ s' with lastExtraction := some env.now }, .incremental res.data)

/-- The column set of readings.csv in a given state (empty when the file is
absent), used to state the schema-growth invariant. -/
def csvColumns (s : FS) : Finset String :=
  match s.readingsCsv with
  | some c => c.header.toFinset
  | none => ∅

/-- A sequence of incremental append-merge steps applied to a state. -/
def runBatches (s : FS) (batches : List (List Record)) : FS :=
  batches.foldl appendMergeReadings s

/-- C2: when the k pages before page k succeed with nonempty item lists and
the request for page k fails (network error, non-2xx, malformed body), the
extraction result is exactly the concatenation of the items of the pages
fetched before the failing page, the failure is recorded by the except
branch, and the surrounding run still completes: run_full_extraction returns
that partial readings result and still reaches its final timestamp write. -/
theorem extraction_retains_pages_before_error
    (env : Env) (s : FS) (fetch : Nat → FetchResult)
    (pageItems : Nat → List Record) (limit k : Nat)
    (hfuel : k < env.fuel)
    (hok : ∀ i, i < k → fetch (i * limit) = .ok (pageItems i) ∧ pageItems i ≠ [])
    (herr : fetch (k * limit) = .err)
    (henv : env.fetchReadings = fetch) (hlimit : limit = 1000) :
    (extract_paginated_data fetch limit env.fuel).data =
        ((List.range k).map pageItems).flatten
    ∧ (extract_paginated_data fetch limit env.fuel).errored = true
    ∧ (run_full_extraction env s).2.2.1 = ((List.range k).map pageItems).flatten
    ∧ (run_full_extraction env s).1.lastFullExtraction = some env.now := by
  have h := extractPagesAux_err fetch pageItems limit k 0 env.fuel hfuel
    (fun i hi => by simpa using hok i hi) (by simpa using herr)
  rw [Nat.zero_mul] at h
  have hdata : (extract_paginated_data fetch limit env.fuel).data =
      ((List.range k).map pageItems).flatten := by
    rw [extract_paginated_data, h]
    simp
  have herrd : (extract_paginated_data fetch limit env.fuel).errored = true := by
    rw [extract_paginated_data, h]
  refine ⟨hdata, herrd, ?_, rfl⟩
  show (extract_paginated_data env.fetchReadings 1000 env.fuel).data = _
  rw [henv, ← hlimit, hdata]

/-- C6: a paginated fetch sequence whose pages up to k are nonempty and whose
page k has an empty (or missing) item list requests exactly the offsets
0, limit, …, k*limit in strictly increasing order (so no offset is requested
twice), stops at that first empty page, and accumulates exactly the earlier
pages without recording an error. -/
theorem pagination_termination
    (fetch : Nat → FetchResult) (pageItems : Nat → List Record)
    (limit k fuel : Nat)
    (hlim : 0 < limit) (hfuel : k < fuel)
    (hok : ∀ i, i < k → fetch (i * limit) = .ok (pageItems i) ∧ pageItems i ≠ [])
    (hempty : fetch (k * limit) = .ok []) :
    (extract_paginated_data fetch limit fuel).offsets =
        (List.range (k + 1)).map (· * limit)
    ∧ (extract_paginated_data fetch limit fuel).offsets.Pairwise (· < ·)
    ∧ (extract_paginated_data fetch limit fuel).data =
        ((List.range k).map pageItems).flatten
    ∧ (extract_paginated_data fetch limit fuel).errored = false := by
  have h := extractPagesAux_empty fetch pageItems limit k 0 fuel hfuel
    (fun i hi => by simpa using hok i hi) (by simpa using hempty)
  rw [Nat.zero_mul] at h
  have hoffs : (extract_paginated_data fetch limit fuel).offsets =
      (List.range (k + 1)).map (· * limit) := by
    rw [extract_paginated_data, h]
    simp
  refine ⟨hoffs, ?_, ?_, ?_⟩
  · rw [hoffs]
    exact (List.pairwise_lt_range (k + 1)).map _
      (fun a b hab => (mul_lt_mul_right hlim).mpr hab)
  · rw [extract_paginated_data, h]
    simp
  · rw [extract_paginated_data, h]

/-- A sample page record used by the concrete witnesses. -/
def demoPage : Record := [("@id", "r1"), ("value", "1")]

/-- A witness environment for the error case: page 0 of the readings endpoint
responds with one record, every later request raises. -/
def c2env : Env where
  fetchStations := fun _ => .ok []
  fetchReadings := fun off => if off = 0 then .ok [demoPage] else .err
  fetchReadingsSince := fun _ _ => .ok []
  fetchFloods := fun _ => .ok []
  now := "2024-01-02T00:00:00"
  fuel := 3

theorem extraction_retains_pages_before_error_witness :
    (extract_paginated_data c2env.fetchReadings 1000 c2env.fuel).data = [demoPage]
    ∧ (extract_paginated_data c2env.fetchReadings 1000 c2env.fuel).errored = true
    ∧ (run_full_extraction c2env emptyFS).2.2.1 = [demoPage]
    ∧ (run_full_extraction c2env emptyFS).1.lastFullExtraction =
        some "2024-01-02T00:00:00" := by
  have h := extraction_retains_pages_before_error c2env emptyFS
    c2env.fetchReadings (fun _ => [demoPage]) 1000 1 (by decide)
    (fun i hi => by rw [Nat.lt_one_iff.mp hi]; exact ⟨by decide, by decide⟩)
    (by decide) rfl rfl
  simpa [List.range_succ] using h

/-- A witness environment for the termination case: page 0 of every endpoint
responds with one record, every later page is empty. -/
def c6env : Nat → FetchResult :=
  fun off => if off = 0 then .ok [demoPage] else .ok []

theorem pagination_termination_witness :
    (extract_paginated_data c6env 500 3).offsets = [0, 500]
    ∧ (extract_paginated_data c6env 500 3).offsets.Pairwise (· < ·)
    ∧ (extract_paginated_data c6env 500 3).data = [demoPage]
    ∧ (extract_paginated_data c6env 500 3).errored = false := by
  have h := pagination_termination c6env (fun _ => [demoPage]) 500 1 3
    (by decide) (by decide)
    (fun i hi => by rw [Nat.lt_one_iff.mp hi]; exact ⟨by decide, by decide⟩)
    (by decide)
  simpa [List.range_succ] using h

/-- Folding key-set unions from a starting set is the starting set joined
with the fold from the empty set. -/
theorem foldl_union_finset (recs : List Record) (E : Finset String) :
    recs.foldl (fun acc r => acc ∪ (recordKeys r).toFinset) E =
      E ∪ unionKeysFinset recs := by
  induction recs generalizing E with
  | nil => simp [unionKeysFinset]
  | cons r rs ih =>
    rw [unionKeysFinset]
    simp only [List.foldl_cons]
    rw [ih, ih (∅ ∪ (recordKeys r).toFinset)]
    rw [Finset.empty_union, Finset.union_assoc]

/-- Membership in the folded key set of a batch. -/
theorem mem_unionKeysFinset (a : String) (recs : List Record) :
    a ∈ unionKeysFinset recs ↔ ∃ r ∈ recs, a ∈ recordKeys r := by
  induction recs with
  | nil => simp [unionKeysFinset]
  | cons r rs ih =>
    rw [unionKeysFinset]
    simp only [List.foldl_cons]
    rw [foldl_union_finset]
    simp only [Finset.empty_union, Finset.mem_union, List.mem_toFinset]
    rw [ih]
    simp

/-- The reconciled header is the sorted form of one set union. -/
theorem reconcile_eq (existing : Finset String) (recs : List Record) :
    reconcileFieldnames existing recs =
      (existing ∪ unionKeysFinset recs).sort fieldLe := by
  rw [reconcileFieldnames, foldl_union_finset]

/-- The set of names in the reconciled header. -/
theorem reconcile_toFinset (existing : Finset String) (recs : List Record) :
    (reconcileFieldnames existing recs).toFinset =
      existing ∪ unionKeysFinset recs := by
  rw [reconcile_eq, Finset.sort_toFinset]

/-- The column set written by a nonempty append-merge step. -/
theorem csvColumns_appendMerge (s : FS) (recs : List Record) (h : recs ≠ []) :
    csvColumns (appendMergeReadings s recs) =
      csvColumns s ∪ unionKeysFinset recs := by
  rw [appendMergeReadings]
  rw [if_neg (by simpa [List.isEmpty_iff] using h)]
  cases hc : s.readingsCsv with
  | none => simp only [csvColumns, hc, reconcile_toFinset]
  | some c => simp only [csvColumns, hc, reconcile_toFinset]

/-- One append-merge step never shrinks the column set. -/
theorem csvColumns_subset_appendMerge (s : FS) (recs : List Record) :
    csvColumns s ⊆ csvColumns (appendMergeReadings s recs) := by
  cases recs with
  | nil => rw [appendMergeReadings]; simp
  | cons r rs =>
    rw [csvColumns_appendMerge s (r :: rs) (by simp)]
    exact Finset.subset_union_left

/-- C3: across any sequence of incremental append-merge steps, the column set
of readings.csv after step n+1 contains the column set after step n, and a
field name observed in any retained record — an existing header name or a key
of any record of the current nonempty batch — is a column of the rewritten
table. -/
theorem readings_schema_monotone (s : FS) (batches : List (List Record))
    (n : Nat) (recs : List Record) (a : String) :
    csvColumns (runBatches s (batches.take n)) ⊆
      csvColumns (runBatches s (batches.take (n + 1)))
    ∧ (recs ≠ [] →
        (a ∈ csvColumns s ∨ ∃ r ∈ recs, a ∈ recordKeys r) →
        a ∈ csvColumns (appendMergeReadings s recs)) := by
  constructor
  · rw [List.take_succ]
    rw [runBatches, runBatches, List.foldl_append]
    cases batches[n]? with
    | none => simp
    | some b =>
      simp only [Option.toList_some, List.foldl_cons, List.foldl_nil]
      exact csvColumns_subset_appendMerge _ b
  · intro hne hmem
    rw [csvColumns_appendMerge s recs hne]
    rw [Finset.mem_union, mem_unionKeysFinset]
    exact hmem

/-- A state already holding a readings.csv with one column, for witnesses. -/
def c3state : FS := { emptyFS with readingsCsv := some (Csv.mk ["value"] []) }

/-- A sample new record for the schema witnesses. -/
def pvRec : Record := [("pv", "1")]

theorem readings_schema_monotone_witness :
    csvColumns (runBatches c3state ([[pvRec]].take 0)) ⊆
      csvColumns (runBatches c3state ([[pvRec]].take 1))
    ∧ "value" ∈ csvColumns (appendMergeReadings c3state [[("pv", "1")]]) := by
  have h := readings_schema_monotone c3state [[pvRec]] 0 [[("pv", "1")]] "value"
  exact ⟨h.1, h.2 (by decide) (Or.inl (by decide))⟩

/-- C7: schema reconciliation returns the sorted list of the union of the
existing names and every key of every new record; the list is duplicate-free;
two inputs carrying the same field-name set reconcile to the identical list;
and reconciling the produced name set again returns the same list. -/
theorem schema_reconcile_deterministic
    (existing existing₂ : Finset String) (recs recs₂ : List Record)
    (a : String) :
    (reconcileFieldnames existing recs).Sorted (· ≤ ·)
    ∧ (reconcileFieldnames existing recs).Nodup
    ∧ (a ∈ reconcileFieldnames existing recs ↔
        a ∈ existing ∨ ∃ r ∈ recs, a ∈ recordKeys r)
    ∧ (existing ∪ unionKeysFinset recs = existing₂ ∪ unionKeysFinset recs₂ →
        reconcileFieldnames existing recs = reconcileFieldnames existing₂ recs₂)
    ∧ reconcileFieldnames (reconcileFieldnames existing recs).toFinset [] =
        reconcileFieldnames existing recs := by
  refine ⟨?_, ?_, ?_, ?_, ?_⟩
  · rw [reconcile_eq]
    exact (Finset.sort_sorted fieldLe _).imp (fun h => (fieldLe_iff _ _).mp h)
  · rw [reconcile_eq]
    exact Finset.sort_nodup fieldLe _
  · rw [reconcile_eq, Finset.mem_sort, Finset.mem_union, mem_unionKeysFinset]
  · intro h
    rw [reconcile_eq, reconcile_eq, h]
  · rw [reconcile_eq (reconcileFieldnames existing recs).toFinset []]
    rw [show unionKeysFinset [] = ∅ from rfl, Finset.union_empty]
    rw [reconcile_toFinset, ← reconcile_eq]

theorem schema_reconcile_deterministic_witness :
    (reconcileFieldnames {"b"} [[("c", "1")]]).Sorted (· ≤ ·)
    ∧ reconcileFieldnames {"b"} [[("c", "1")]] =
        reconcileFieldnames {"c"} [[("b", "1")]] := by
  have h := schema_reconcile_deterministic {"b"} {"c"}
    [[("c", "1")]] [[("b", "1")]] "b"
  exact ⟨h.1, h.2.2.2.1 (by decide)⟩

/-- C8: when last_extraction.txt is absent, the incremental entry point is
not an error: it runs the full extraction and returns the full run's state
and result triple. -/
theorem missing_watermark_falls_back_to_full (env : Env) (s : FS)
    (h : s.lastExtraction = none) :
    run_incremental_extraction env s =
      ((run_full_extraction env s).1,
       .fullFallback (run_full_extraction env s).2) := by
  rw [run_incremental_extraction, h]

theorem missing_watermark_falls_back_to_full_witness :
    run_incremental_extraction c2env emptyFS =
      ((run_full_extraction c2env emptyFS).1,
       .fullFallback (run_full_extraction c2env emptyFS).2) :=
  missing_watermark_falls_back_to_full c2env emptyFS rfl

/-- C10: an incremental run that finds a watermark but fetches zero new
readings leaves every file except last_extraction.txt exactly as it was —
readings.csv is neither rewritten nor widened — while last_extraction.txt is
still overwritten with the current run's timestamp. -/
theorem incremental_zero_new_readings_frame (env : Env) (s : FS) (w : String)
    (hw : s.lastExtraction = some w)
    (hempty : (extract_paginated_data (env.fetchReadingsSince w)
      1000 env.fuel).data = []) :
    run_incremental_extraction env s =
      ({ s with lastExtraction := some env.now }, .incremental []) := by
  rw [run_incremental_extraction, hw]
  simp only
  rw [hempty]
  rw [appendMergeReadings]
  simp

/-- A state holding a watermark and a one-row readings.csv, for witnesses. -/
def c10state : FS :=
  { emptyFS with
      lastExtraction := some "2024-01-01T00:00:00"
      readingsCsv := some (Csv.mk ["value"] [["1"]]) }

theorem incremental_zero_new_readings_frame_witness :
    run_incremental_extraction c2env c10state =
      ({ c10state with lastExtraction := some "2024-01-02T00:00:00" },
       .incremental []) := by
  have h := incremental_zero_new_readings_frame c2env c10state
    "2024-01-01T00:00:00" rfl (by decide)
  simpa using h

/-- A fully healthy remote endpoint: one page of data, then the empty page. -/
def okFetch : Nat → FetchResult :=
  fun off => if off = 0 then .ok [demoPage] else .ok []

/-- An environment in which every endpoint succeeds, for the watermark run. -/
def c1env : Env where
  fetchStations := okFetch
  fetchReadings := okFetch
  fetchReadingsSince := fun _ => okFetch
  fetchFloods := okFetch
  now := "2024-01-02T00:00:00"
  fuel := 3

/-- C1 (observed divergence, evaluated on a concrete run): after a successful
full extraction from a fresh directory, the timestamp was written to
last_full_extraction.txt only; last_extraction.txt — the file the incremental
entry point reads as its since bound — is still absent, so the following
incremental run does not read the value the full run wrote and instead falls
back to another full extraction, after which the incremental watermark is
still absent. The watermark is therefore not one value overwritten by every
successful run, and the full run's value is never a subsequent incremental
run's since bound. -/
theorem watermark_not_shared_between_runs :
    (run_full_extraction c1env emptyFS).1.lastFullExtraction =
        some "2024-01-02T00:00:00"
    ∧ (run_full_extraction c1env emptyFS).1.lastExtraction = none
    ∧ run_incremental_extraction c1env (run_full_extraction c1env emptyFS).1 =
        ((run_full_extraction c1env (run_full_extraction c1env emptyFS).1).1,
         .fullFallback
           (run_full_extraction c1env (run_full_extraction c1env emptyFS).1).2)
    ∧ (run_incremental_extraction c1env
        (run_full_extraction c1env emptyFS).1).1.lastExtraction = none := by
  refine ⟨rfl, rfl, ?_, ?_⟩
  · rw [run_incremental_extraction]
    rw [show (run_full_extraction c1env emptyFS).1.lastExtraction = none from rfl]
  · rw [run_incremental_extraction]
    rw [show (run_full_extraction c1env emptyFS).1.lastExtraction = none from rfl]
    rfl

/-- One row of the processed stations table consumed by create_features,
with label standing for the station metadata columns. -/
structure Station where
  station_id : String
  label : String
deriving DecidableEq

/-- One row of the processed readings table consumed by create_features. -/
structure Reading where
  station_id : String
  dt : Nat
  value : Int
deriving DecidableEq

/-- One row of the merged frame: the reading columns plus the station
metadata column, absent (NaN) when the left merge found no station. -/
structure MergedRow where
  station_id : String
  dt : Nat
  value : Int
  label : Option String
deriving DecidableEq

/-- pd.merge(readings_df, stations_df, on=station_id, how=left): each reading
row is joined with every station row carrying its station identifier, in
station-table order, and yields a single row with absent station fields when
no station matches. -/
def leftMerge (readings : List Reading) (stations : List Station) :
    List MergedRow :=
  readings.flatMap (fun r =>
    if (stations.filter (fun st => st.station_id == r.station_id)).isEmpty then
      [⟨r.station_id, r.dt, r.value, none⟩]
    else
      (stations.filter (fun st => st.station_id == r.station_id)).map
        (fun st => ⟨r.station_id, r.dt, r.value, some st.label⟩))

/-- The sort key of merged.sort_values([station_id, datetime]): station
identifier (code-point string order), then timestamp. -/
def rowLe (a b : MergedRow) : Bool :=
  if a.station_id = b.station_id then decide (a.dt ≤ b.dt)
  else decide (a.station_id.toList ≤ b.station_id.toList)

/-- The merged frame after sort_values([station_id, datetime]). -/
def sortMerged (rows : List MergedRow) : List MergedRow :=
  rows.mergeSort rowLe

/-- groupby(station_id)[value].shift(k), row by row in frame order: the lag-k
cell of a row is the value of the k-th most recent earlier row of the same
station, NaN when that station has fewer than k earlier rows; seen carries
the rows already passed. -/
def lagColumnAux (k : Nat) (seen : List MergedRow) :
    List MergedRow → List (Option Int)
  | [] => []
  | r :: rest =>
    ((seen.filter (fun p => p.station_id == r.station_id)).reverse[k - 1]?).map
        (fun p => p.value)
      :: lagColumnAux k (seen ++ [r]) rest

/-- The whole lag-k column of a frame. -/
def lagColumn (k : Nat) (rows : List MergedRow) : List (Option Int) :=
  lagColumnAux k [] rows

/-- FloodETL.create_features: left-merge readings with stations, sort by
station and timestamp, and attach the lag-1 and lag-24 value columns. -/
def create_features (readings : List Reading) (stations : List Station) :
    List (MergedRow × Option Int × Option Int) :=
  let merged := sortMerged (leftMerge readings stations)
  merged.zip ((lagColumn 1 merged).zip (lagColumn 24 merged))

/-- The positional shift the specification describes: element j of the lag-k
sequence is the value k positions earlier in the same sequence, absent when
there is insufficient history. Stated from the spec for comparison with the
lag column computed by the code. -/
def lagSpec (k : Nat) (vs : List Int) : List (Option Int) :=
  (List.range vs.length).map (fun j => if k ≤ j then vs[j - k]? else none)

/-- The value sequence of one station, in frame order. -/
def stationValues (rows : List MergedRow) (s : String) : List Int :=
  (rows.filter (fun r => r.station_id == s)).map (fun r => r.value)

/-- The lag-k cells of one station's rows, in frame order. -/
def stationLags (k : Nat) (rows : List MergedRow) (s : String) :
    List (Option Int) :=
  ((rows.zip (lagColumn k rows)).filter
      (fun p => p.1.station_id == s)).map (fun p => p.2)

/-- Proof-side form of the shift of one station's value sequence, carrying
the values already passed. -/
def shiftFrom (k : Nat) (done : List Int) : List Int → List (Option Int)
  | [] => []
  | v :: vs => done.reverse[k - 1]? :: shiftFrom k (done ++ [v]) vs

/-- The lag-k cells of station s rows equal the shift of the value sequence
of station s, for any frame order. -/
theorem lagColumnAux_filter (k : Nat) (s : String) :
    ∀ (rest seen : List MergedRow),
    ((rest.zip (lagColumnAux k seen rest)).filter
        (fun p => p.1.station_id == s)).map (fun p => p.2) =
      shiftFrom k (stationValues seen s)
        ((rest.filter (fun r => r.station_id == s)).map (fun r => r.value)) := by
  intro rest
  induction rest with
  | nil => intro seen; rfl
  | cons r rest ih =>
    intro seen
    rw [lagColumnAux]
    rw [List.zip_cons_cons, List.filter_cons, List.filter_cons]
    by_cases hr : r.station_id = s
    · have hb : (r.station_id == s) = true := by simpa using hr
      simp only [hb, if_true]
      rw [List.map_cons, List.map_cons]
      rw [shiftFrom]
      congr 1
      · simp only [hr, stationValues, ← List.map_reverse, List.getElem?_map]
      · rw [ih (seen ++ [r])]
        congr 1
        rw [stationValues, stationValues, List.filter_append, List.map_append]
        congr 1
        simp [hb]
    · have hb : (r.station_id == s) = false := by
        simpa using hr
      simp only [hb, Bool.false_eq_true, if_false]
      rw [ih (seen ++ [r])]
      congr 1
      rw [stationValues, stationValues, List.filter_append, List.map_append]
      simp [hb]

/-- Closed form of the shift: element j looks k positions back into the full
value sequence, absent while fewer than k values precede it. -/
theorem shiftFrom_eq (k : Nat) (hk : 1 ≤ k) :
    ∀ (vs done : List Int),
    shiftFrom k done vs =
      (List.range vs.length).map (fun j =>
        if k ≤ j + done.length then (done ++ vs)[j + done.length - k]?
        else none) := by
  intro vs
  induction vs with
  | nil => intro done; rfl
  | cons v vs ih =>
    intro done
    rw [shiftFrom]
    rw [List.length_cons, List.range_succ_eq_map, List.map_cons, List.map_map]
    congr 1
    · by_cases hkd : k ≤ done.length
      · have hlt : k - 1 < done.length := by omega
        rw [List.getElem?_reverse (by simpa using hlt)]
        rw [Nat.zero_add, if_pos hkd]
        rw [List.getElem?_append_left (by omega)]
        congr 1
        omega
      · rw [List.getElem?_eq_none (by simp; omega)]
        rw [Nat.zero_add, if_neg hkd]
    · rw [ih (done ++ [v])]
      apply List.map_congr_left
      intro j _
      simp only [Function.comp_apply, Nat.succ_eq_add_one, List.length_append,
        List.length_cons, List.length_nil]
      have harr : (done ++ [v]) ++ vs = done ++ v :: vs := by
        rw [List.append_assoc]
        rfl
      rw [harr]
      have hidx : j + (done.length + 1) = j + 1 + done.length := by omega
      rw [hidx]

/-- The lag-k cells of one station's rows are exactly the positional shift of
that station's value sequence, in any frame order. -/
theorem stationLags_eq (k : Nat) (hk : 1 ≤ k) (rows : List MergedRow)
    (s : String) :
    stationLags k rows s = lagSpec k (stationValues rows s) := by
  rw [stationLags, lagColumn]
  rw [lagColumnAux_filter k s rows []]
  rw [shiftFrom_eq k hk]
  rw [show stationValues [] s = [] from rfl]
  simp only [List.length_nil, Nat.add_zero, List.nil_append]
  rw [lagSpec, stationValues]

/-- The sort key is transitive. -/
theorem rowLe_trans (a b c : MergedRow) (hab : rowLe a b = true)
    (hbc : rowLe b c = true) : rowLe a c = true := by
  rw [rowLe] at *
  by_cases h1 : a.station_id = b.station_id
  · rw [if_pos h1] at hab
    by_cases h2 : b.station_id = c.station_id
    · rw [if_pos h2] at hbc
      rw [if_pos (h1.trans h2)]
      simp only [decide_eq_true_eq] at *
      omega
    · rw [if_neg h2] at hbc
      rw [if_neg (h1 ▸ h2)]
      rw [h1]
      exact hbc
  · rw [if_neg h1] at hab
    by_cases h2 : b.station_id = c.station_id
    · rw [if_neg (fun h : a.station_id = c.station_id => h1 (h.trans h2.symm))]
      rw [← h2]
      exact hab
    · rw [if_neg h2] at hbc
      simp only [decide_eq_true_eq] at hab hbc
      by_cases h3 : a.station_id = c.station_id
      · exfalso
        apply h1
        apply String.toList_inj.mp
        have : c.station_id.toList = a.station_id.toList := h3 ▸ rfl
        exact le_antisymm hab (le_trans hbc (le_of_eq this))
      · rw [if_neg h3]
        simp only [decide_eq_true_eq]
        exact le_trans hab hbc

/-- The sort key is total. -/
theorem rowLe_total (a b : MergedRow) : rowLe a b || rowLe b a := by
  rw [rowLe, rowLe]
  by_cases h : a.station_id = b.station_id
  · rw [if_pos h, if_pos h.symm]
    rcases Nat.le_total a.dt b.dt with h' | h' <;> simp [h']
  · rw [if_neg h, if_neg (fun h' => h h'.symm)]
    rcases le_total a.station_id.toList b.station_id.toList with h' | h'
    · simp only [Bool.or_eq_true, decide_eq_true_eq]
      exact Or.inl h'
    · simp only [Bool.or_eq_true, decide_eq_true_eq]
      exact Or.inr h'

/-- After the sort, the timestamps of one station's rows ascend. -/
theorem sortMerged_station_dt_sorted (rows : List MergedRow) (s : String) :
    (((sortMerged rows).filter (fun r => r.station_id == s)).map
      (fun r => r.dt)).Sorted (· ≤ ·) := by
  have hp : List.Pairwise (fun a b => rowLe a b = true) (sortMerged rows) :=
    List.sorted_mergeSort rowLe_trans rowLe_total rows
  have hf : List.Pairwise (fun a b => rowLe a b = true)
      ((sortMerged rows).filter (fun r => r.station_id == s)) :=
    List.Pairwise.sublist (List.filter_sublist _) hp
  have hdt : List.Pairwise (fun a b : MergedRow => a.dt ≤ b.dt)
      ((sortMerged rows).filter (fun r => r.station_id == s)) := by
    refine hf.imp_of_mem ?_
    intro a b ha hb hab
    have has : a.station_id = s := by
      simpa using (List.mem_filter.mp ha).2
    have hbs : b.station_id = s := by
      simpa using (List.mem_filter.mp hb).2
    rw [rowLe, if_pos (has.trans hbs.symm)] at hab
    simpa using hab
  rw [List.Sorted, List.pairwise_map]
  exact hdt

/-- C4: in the sorted merged frame, the lag-1 and lag-24 cells of each
station's rows are the value 1 and 24 positions earlier within that station's
own row sequence — absent while the station has insufficient history — the
offset being positional and confined to the station (the shift consumes only
that station's value sequence), and that sequence is sorted ascending in
time. -/
theorem lag_features_positional (rows : List MergedRow) (s : String) :
    stationLags 1 (sortMerged rows) s =
        lagSpec 1 (stationValues (sortMerged rows) s)
    ∧ stationLags 24 (sortMerged rows) s =
        lagSpec 24 (stationValues (sortMerged rows) s)
    ∧ (((sortMerged rows).filter (fun r => r.station_id == s)).map
        (fun r => r.dt)).Sorted (· ≤ ·) :=
  ⟨stationLags_eq 1 (by omega) _ s, stationLags_eq 24 (by omega) _ s,
   sortMerged_station_dt_sorted rows s⟩

unseal List.merge List.mergeSort in
/-- C5 (counterexample): the left merge is not one row per reading on every
input — a stations table that lists the same station identifier twice makes
the single reading for that station produce two feature rows. -/
theorem left_join_exactly_one_counterexample :
    (create_features [⟨"S1", 0, 1⟩] [⟨"S1", "A"⟩, ⟨"S1", "B"⟩]).length ≠ 1 := by
  decide

/-- Every lag column is as long as its frame. -/
theorem lagColumnAux_length (k : Nat) :
    ∀ (rest seen : List MergedRow),
    (lagColumnAux k seen rest).length = rest.length := by
  intro rest
  induction rest with
  | nil => intro seen; rfl
  | cons r rest ih =>
    intro seen
    rw [lagColumnAux, List.length_cons, List.length_cons, ih]

/-- With no duplicated station identifier, filtering the stations table for
one identifier finds at most the first match. -/
theorem filter_station_nodup (stations : List Station)
    (hn : (stations.map (fun st => st.station_id)).Nodup) (i : String) :
    stations.filter (fun st => st.station_id == i) =
      (stations.find? (fun st => st.station_id == i)).toList := by
  induction stations with
  | nil => rfl
  | cons st rest ih =>
    rw [List.map_cons, List.nodup_cons] at hn
    rw [List.filter_cons]
    by_cases hst : st.station_id = i
    · have hb : (st.station_id == i) = true := by simpa using hst
      rw [if_pos hb]
      simp only [List.find?_cons, hb, Option.toList_some]
      congr 1
      rw [List.filter_eq_nil_iff]
      intro p hp hpb
      apply hn.1
      rw [List.mem_map]
      exact ⟨p, hp, by
        have hpi : p.station_id = i := by simpa using hpb
        rw [hpi, hst]⟩
    · have hb : (st.station_id == i) = false := by simpa using hst
      rw [if_neg (by simp [hb])]
      simp only [List.find?_cons, hb]
      exact ih hn.2

/-- C5 (amended): every normalized reading produces at least one feature row
and none is dropped; when the stations table has no duplicated station
identifier, every reading produces exactly one row — carrying the matching
station's fields, or absent station fields when no station matches — and the
feature table has exactly one row per reading. -/
theorem left_join_completeness (readings : List Reading)
    (stations : List Station) :
    readings.length ≤ (leftMerge readings stations).length
    ∧ ((stations.map (fun st => st.station_id)).Nodup →
        leftMerge readings stations = readings.map (fun r =>
          match stations.find? (fun st => st.station_id == r.station_id) with
          | some st => ⟨r.station_id, r.dt, r.value, some st.label⟩
          | none => ⟨r.station_id, r.dt, r.value, none⟩)
        ∧ (create_features readings stations).length = readings.length) := by
  constructor
  · induction readings with
    | nil => simp [leftMerge]
    | cons r rs ih =>
      rw [leftMerge, List.flatMap_cons, List.length_append]
      rw [show (rs.flatMap _ : List MergedRow) = leftMerge rs stations from rfl]
      have h1 : 1 ≤ (if (stations.filter
            (fun st => st.station_id == r.station_id)).isEmpty then
          [(⟨r.station_id, r.dt, r.value, none⟩ : MergedRow)]
        else
          (stations.filter (fun st => st.station_id == r.station_id)).map
            (fun st => ⟨r.station_id, r.dt, r.value, some st.label⟩)).length := by
        by_cases hms : (stations.filter
            (fun st => st.station_id == r.station_id)).isEmpty
        · rw [if_pos hms]
          simp
        · rw [if_neg hms]
          rw [List.length_map]
          have hne : stations.filter (fun st => st.station_id == r.station_id)
              ≠ [] := by
            simpa [List.isEmpty_iff] using hms
          have := List.length_pos.mpr hne
          omega
      rw [List.length_cons]
      omega
  · intro hn
    have hrow : leftMerge readings stations = readings.map (fun r =>
        match stations.find? (fun st => st.station_id == r.station_id) with
        | some st => ⟨r.station_id, r.dt, r.value, some st.label⟩
        | none => ⟨r.station_id, r.dt, r.value, none⟩) := by
      induction readings with
      | nil => rfl
      | cons r rs ih =>
        rw [leftMerge, List.flatMap_cons, List.map_cons]
        rw [show (rs.flatMap _ : List MergedRow) = leftMerge rs stations
          from rfl]
        rw [ih]
        rw [filter_station_nodup stations hn r.station_id]
        cases stations.find? (fun st => st.station_id == r.station_id) with
        | none => rfl
        | some st => rfl
    refine ⟨hrow, ?_⟩
    rw [create_features]
    rw [List.length_zip, List.length_zip]
    rw [lagColumn, lagColumn, lagColumnAux_length, lagColumnAux_length]
    rw [sortMerged, List.length_mergeSort]
    rw [hrow, List.length_map]
    omega

theorem left_join_completeness_witness :
    ([⟨"S1", 0, 1⟩] : List Reading).length ≤
        (leftMerge [⟨"S1", 0, 1⟩] [⟨"S2", "B"⟩]).length
    ∧ leftMerge [⟨"S1", 0, 1⟩] [⟨"S2", "B"⟩] = [⟨"S1", 0, 1, none⟩]
    ∧ (create_features [⟨"S1", 0, 1⟩] [⟨"S2", "B"⟩]).length = 1 := by
  have h := left_join_completeness [⟨"S1", 0, 1⟩] [⟨"S2", "B"⟩]
  have h2 := h.2 (by decide)
  refine ⟨h.1, ?_, ?_⟩
  · rw [h2.1]
    decide
  · simpa using h2.2
